import Mathlib

/-!
Verification development for the ZEN-AI memory engine.

The semantic memory subsystem consists of three modules:

* `database.py` — per-user persistent vector storage built on a FAISS
  `IndexFlatIP` (flat inner-product index) plus a JSON sidecar mapping index
  positions back to text records.  Public operations `save_memory` and
  `search_memories`.
* `embedder.py` — `text_to_vector`, a thin wrapper over a remote embedding
  HTTP endpoint returning 384-dimensional vectors.
* `memory_api.py` — the `/remember` and `/recall` endpoint handlers.

The embedding below models float vectors as lists of real numbers
(idealising IEEE floats as reals), the filesystem as a pair of finite maps
from sanitised directory names to file contents, and the remote embedding
provider as an arbitrary function from texts to HTTP responses.  The FAISS
library is not part of the repository; its `IndexFlatIP` is modelled from
its documented contract: `add` appends a vector after checking its
dimension, `search` returns the indices of the `k` stored vectors with the
largest inner product against the query, in descending score order (ties
resolved towards the earlier index, matching the strict-replacement
max-heap used by flat FAISS indexes).  `uuid.uuid4` is modelled by a
deterministic fresh-id counter; no claim depends on the value of an id.
-/

namespace ZenMemory

/-- Vectors (`list[float]` in the source) idealised as lists of reals. -/
abbrev Vec := List ℝ

/-- Inner product of two vectors (truncating at the shorter list). -/
def dot : Vec → Vec → ℝ
  | x :: xs, y :: ys => x * y + dot xs ys
  | _, _ => 0

/-- Squared L2 norm. -/
def normSq (v : Vec) : ℝ := dot v v

/-- `faiss.normalize_L2`: divide by the L2 norm, leaving the vector
unchanged when its norm is zero (FAISS guards `nr > 0`). -/
noncomputable def normalize (v : Vec) : Vec :=
  if 0 < normSq v then v.map (fun x => (Real.sqrt (normSq v))⁻¹ * x) else v

/-- `VECTOR_DIM = 384`, the all-MiniLM-L6-v2 embedding dimension. -/
def VECTOR_DIM : ℕ := 384

/-- Model of a FAISS `IndexFlatIP`: a dimension and the stored vectors in
insertion order. -/
structure FaissIndexFlatIP where
  d : ℕ
  vecs : List Vec

/-- Number of stored vectors (`index.ntotal`). -/
def FaissIndexFlatIP.ntotal (idx : FaissIndexFlatIP) : ℕ := idx.vecs.length

/-- `index.add`: appends the vector; FAISS asserts the vector dimension
matches the index dimension and raises otherwise. -/
def FaissIndexFlatIP.add (idx : FaissIndexFlatIP) (v : Vec) :
    Except String FaissIndexFlatIP :=
  if v.length = idx.d then .ok ⟨idx.d, idx.vecs ++ [v]⟩
  else .error "faiss: vector dimension mismatch"

/-- Ranking order on `(index, score)` pairs: higher score first. -/
def scoreGe (a b : ℕ × ℝ) : Prop := b.2 ≤ a.2

noncomputable instance : DecidableRel scoreGe :=
  fun a b => inferInstanceAs (Decidable (b.2 ≤ a.2))

instance : IsTotal (ℕ × ℝ) scoreGe := ⟨fun a b => le_total b.2 a.2⟩

instance : IsTrans (ℕ × ℝ) scoreGe := ⟨fun _ _ _ h h' => le_trans h' h⟩

/-- Each stored-vector position paired with its inner product against the
query. -/
noncomputable def scorePairs (vecs : List Vec) (q : Vec) : List (ℕ × ℝ) :=
  (List.range vecs.length).map (fun i => (i, dot (vecs.getD i []) q))

/-- Indices of the top-`k` stored vectors by inner product with `q`,
best first.  A stable sort resolves ties towards the earlier index. -/
noncomputable def topIndices (vecs : List Vec) (q : Vec) (k : ℕ) : List ℕ :=
  ((List.insertionSort scoreGe (scorePairs vecs q)).take k).map Prod.fst

/-- `index.search(q, k)`: FAISS asserts the query dimension matches and
returns the indices of the `k` highest-inner-product stored vectors. -/
noncomputable def FaissIndexFlatIP.search (idx : FaissIndexFlatIP) (q : Vec) (k : ℕ) :
    Except String (List ℕ) :=
  if q.length = idx.d then .ok (topIndices idx.vecs q k)
  else .error "faiss: query dimension mismatch"

/-- One entry of the JSON metadata sidecar: `{"id", "text", "email"}`. -/
structure MetaRecord where
  id : String
  text : String
  email : String
deriving DecidableEq

/-- The on-disk state: `index.faiss` and `meta.json` files keyed by the
sanitised directory name, plus the fresh-id source standing in for
`uuid.uuid4`. -/
structure Disk where
  indexFile : String → Option FaissIndexFlatIP
  metaFile : String → Option (List MetaRecord)
  nextId : ℕ

/-- `_sanitise_name`: replace every non-alphanumeric character by `_`,
strip leading and trailing underscores, and fall back to `"unknown"` when
nothing is left. -/
def _sanitise_name (email : String) : String :=
  let safe := email.data.map (fun c => if c.isAlphanum then c else '_')
  let stripped := ((safe.dropWhile (fun c => c = '_')).reverse.dropWhile
      (fun c => c = '_')).reverse
  if stripped.isEmpty then "unknown" else String.mk stripped

/-- `_load_index`: read the user's index file, or a fresh
`IndexFlatIP(VECTOR_DIM)` when none exists. -/
def _load_index (dk : Disk) (email : String) : FaissIndexFlatIP :=
  match dk.indexFile (_sanitise_name email) with
  | some idx => idx
  | none => ⟨VECTOR_DIM, []⟩

/-- `_load_meta`: read the user's metadata sidecar, or `[]` when none
exists. -/
def _load_meta (dk : Disk) (email : String) : List MetaRecord :=
  match dk.metaFile (_sanitise_name email) with
  | some m => m
  | none => []

/-- `save_memory(email, text, vector)`: load the user's partition,
normalise the vector, add it to the index (FAISS raises on a dimension
mismatch, in which case nothing is written), append the sidecar record and
write both files back.  Returns the fresh memory id. -/
noncomputable def save_memory (dk : Disk) (email : String) (text : String)
    (vector : Vec) : Except String (Disk × String) :=
  let index := _load_index dk email
  let meta := _load_meta dk email
  let memory_id := toString dk.nextId
  let vec := normalize vector
  match index.add vec with
  | .error e => .error e
  | .ok index2 =>
      .ok ({ indexFile := fun key =>
               if key = _sanitise_name email then some index2 else dk.indexFile key,
             metaFile := fun key =>
               if key = _sanitise_name email then
                 some (meta ++ [⟨memory_id, text, email⟩])
               else dk.metaFile key,
             nextId := dk.nextId + 1 }, memory_id)

/-- `search_memories(email, query_vector, limit)`: return `[]` when the
user has no vectors, otherwise clamp the limit to `ntotal`, normalise the
query, run the FAISS search and map each returned index back to its
sidecar text, silently skipping indices outside the sidecar bounds. -/
noncomputable def search_memories (dk : Disk) (email : String)
    (query_vector : Vec) (limit : ℕ) : Except String (List String) :=
  let index := _load_index dk email
  let meta := _load_meta dk email
  if index.ntotal = 0 then .ok []
  else
    let effective_limit := min limit index.ntotal
    let q := normalize query_vector
    match index.search q effective_limit with
    | .error e => .error e
    | .ok idxs => .ok (idxs.filterMap (fun i => (meta[i]?).map MetaRecord.text))

/-! ### embedder.py and memory_api.py -/

/-- Shape of the JSON body returned by the embedding HTTP endpoint, as far
as `text_to_vector` inspects it: a non-empty list whose first element is a
list (`[[0.1, ...]]`), an already-flat list, or anything else. -/
inductive HfJson where
  | rows (r : List (List ℝ))
  | flat (xs : List ℝ)
  | nonList

/-- An HTTP response from the embedding provider. -/
structure HfResponse where
  status : ℕ
  body : HfJson

/-- `text_to_vector(text)`: POST the text to the provider; raise on a
non-200 status; unwrap `[[...]]` to its first row; accept a non-empty flat
list as-is; raise on anything else.  The remote provider is modelled as an
arbitrary function from the posted text to the response. -/
def text_to_vector (provider : String → HfResponse) (text : String) :
    Except String Vec :=
  let response := provider text
  if response.status ≠ 200 then
    .error "HuggingFace API error"
  else
    match response.body with
    | .rows (r :: _) => .ok r
    | .flat (x :: xs) => .ok (x :: xs)
    | _ => .error "Unexpected API response format"

/-- Schema of the `/remember` endpoint: an email and the text to store. -/
structure RememberRequest where
  email : String
  text : String

/-- Response of the `/remember` endpoint. -/
structure RememberResponse where
  status : String
  memory_id : String
deriving DecidableEq

/-- Schema of the `/recall` endpoint: an email and the query text.  There
is no limit field. -/
structure RecallRequest where
  email : String
  query_text : String

/-- Response of the `/recall` endpoint. -/
structure RecallResponse where
  email : String
  query_text : String
  memories : List String
deriving DecidableEq

/-- A FastAPI `HTTPException`, as raised by the two handlers. -/
structure HttpError where
  status_code : ℕ
  detail : String
deriving DecidableEq

/-- `POST /remember`: embed the text, persist it via `save_memory`, and
answer `{"status": "saved", "memory_id": ...}`; any exception becomes an
HTTP 500. -/
noncomputable def remember (provider : String → HfResponse) (dk : Disk)
    (request : RememberRequest) :
    Except HttpError (Disk × RememberResponse) :=
  match text_to_vector provider request.text with
  | .error e => .error ⟨500, e⟩
  | .ok vector =>
      match save_memory dk request.email request.text vector with
      | .error e => .error ⟨500, e⟩
      | .ok (dk', memory_id) => .ok (dk', ⟨"saved", memory_id⟩)

/-- `POST /recall`: embed the query text and search the caller's memories
with the fixed limit 5; any exception becomes an HTTP 500. -/
noncomputable def recall_handler (provider : String → HfResponse) (dk : Disk)
    (request : RecallRequest) : Except HttpError RecallResponse :=
  match text_to_vector provider request.query_text with
  | .error e => .error ⟨500, e⟩
  | .ok query_vector =>
      match search_memories dk request.email query_vector 5 with
      | .error e => .error ⟨500, e⟩
      | .ok memories => .ok ⟨request.email, request.query_text, memories⟩

/-- A disk with no partitions, as created by a fresh deployment. -/
def emptyDisk : Disk := ⟨fun _ => none, fun _ => none, 0⟩

/-- Disk states reachable by the database module's only mutating
operation, `save_memory` (searches never write). -/
inductive Reachable : Disk → Prop
  | empty : Reachable emptyDisk
  | save {dk : Disk} {email text : String} {vector : Vec} {dk' : Disk} {id : String} :
      Reachable dk → save_memory dk email text vector = .ok (dk', id) →
      Reachable dk'

/-- Pointwise difference of two vectors. -/
def vsub (v w : Vec) : Vec := List.zipWith (fun a b => a - b) v w

/-- The disk written back by a successful `save_memory` call: both files
of the owner's partition replaced, the id counter advanced. -/
noncomputable def savedDisk (dk : Disk) (e t : String) (v : Vec) : Disk :=
  { indexFile := fun key =>
      if key = _sanitise_name e then
        some ⟨(_load_index dk e).d, (_load_index dk e).vecs ++ [normalize v]⟩
      else dk.indexFile key,
    metaFile := fun key =>
      if key = _sanitise_name e then
        some (_load_meta dk e ++ [⟨toString dk.nextId, t, e⟩])
      else dk.metaFile key,
    nextId := dk.nextId + 1 }

/-- A FAISS index arising in a reachable disk state: its dimension is the
configured 384 and every stored vector was L2-normalised on entry. -/
def GoodIndex (idx : FaissIndexFlatIP) : Prop :=
  idx.d = VECTOR_DIM ∧
  ∀ v ∈ idx.vecs, v.length = VECTOR_DIM ∧ ∃ u, v = normalize u

/-- Invariant of every reachable disk: for every owner the sidecar length
matches the index population and the index is well-formed. -/
def Consistent (dk : Disk) : Prop :=
  ∀ email, (_load_meta dk email).length = (_load_index dk email).ntotal ∧
    GoodIndex (_load_index dk email)

/-! ### Concrete test inputs -/

/-- The all-zero 384-dimensional vector. -/
noncomputable def zv : Vec := List.replicate 384 0

/-- A concrete 384-dimensional unit vector. -/
noncomputable def e1v : Vec := 1 :: List.replicate 383 0

/-- A provider whose every response is `200` with body `[[0, ..., 0]]`
(one 384-dimensional row), the shape `text_to_vector` unwraps. -/
noncomputable def hfOk : String → HfResponse := fun _ => ⟨200, .rows [zv]⟩

/-- The disk holding exactly one record, `"world"` under owner
`"u@x.co"` with stored vector `e1v` — the state produced by
`save_memory emptyDisk "u@x.co" "world" e1v`. -/
noncomputable def dHello : Disk :=
  { indexFile := fun key => if key = "u_x_co" then some ⟨384, [e1v]⟩ else none,
    metaFile := fun key =>
      if key = "u_x_co" then some [⟨"0", "world", "u@x.co"⟩] else none,
    nextId := 1 }

/-- A partition whose index holds one vector while its sidecar file is
missing: the sidecar/index mismatch the spec calls `Corrupted`. -/
noncomputable def corruptDisk : Disk :=
  { indexFile := fun key => if key = "u_x" then some ⟨384, [e1v]⟩ else none,
    metaFile := fun _ => none,
    nextId := 0 }

/-! ### Vector algebra -/

theorem dot_nil_right (v : Vec) : dot v [] = 0 := by
  cases v <;> rfl

theorem dot_cons (x y : ℝ) (xs ys : Vec) :
    dot (x :: xs) (y :: ys) = x * y + dot xs ys := rfl

theorem dot_comm (v w : Vec) : dot v w = dot w v := by
  induction v generalizing w with
  | nil => cases w <;> rfl
  | cons x xs ih =>
      cases w with
      | nil => rfl
      | cons y ys => simp only [dot_cons, ih]; ring

theorem normSq_cons (x : ℝ) (xs : Vec) :
    normSq (x :: xs) = x * x + normSq xs := rfl

theorem normSq_nonneg (v : Vec) : 0 ≤ normSq v := by
  induction v with
  | nil => exact le_refl 0
  | cons x xs ih =>
      have := mul_self_nonneg x
      rw [normSq_cons]; positivity

theorem dot_eq_zero_of_normSq_zero {v : Vec} (h : normSq v = 0) (w : Vec) :
    dot v w = 0 := by
  induction v generalizing w with
  | nil => cases w <;> rfl
  | cons x xs ih =>
      rw [normSq_cons] at h
      obtain ⟨hx, hxs⟩ :=
        (add_eq_zero_iff_of_nonneg (mul_self_nonneg x) (normSq_nonneg xs)).mp h
      cases w with
      | nil => rfl
      | cons y ys =>
          rw [dot_cons, ih hxs, mul_self_eq_zero.mp hx]; ring

theorem dot_replicate_zero (n : ℕ) (w : Vec) :
    dot (List.replicate n 0) w = 0 := by
  induction n generalizing w with
  | zero => cases w <;> rfl
  | succ m ih =>
      cases w with
      | nil => rfl
      | cons y ys => rw [List.replicate_succ, dot_cons, ih]; ring

theorem dot_map_mul_left (c : ℝ) (v w : Vec) :
    dot (v.map (fun x => c * x)) w = c * dot v w := by
  induction v generalizing w with
  | nil => cases w <;> simp [dot]
  | cons x xs ih =>
      cases w with
      | nil => simp [dot_nil_right]
      | cons y ys => simp only [List.map_cons, dot_cons, ih]; ring

theorem dot_map_mul_right (c : ℝ) (v w : Vec) :
    dot v (w.map (fun x => c * x)) = c * dot v w := by
  rw [dot_comm, dot_map_mul_left, dot_comm]

theorem normSq_vsub (v w : Vec) (h : v.length = w.length) :
    normSq (vsub v w) = normSq v - 2 * dot v w + normSq w := by
  induction v generalizing w with
  | nil =>
      cases w with
      | nil => simp [vsub, normSq, dot]
      | cons y ys => simp at h
  | cons x xs ih =>
      cases w with
      | nil => simp at h
      | cons y ys =>
          simp only [List.length_cons, Nat.succ_inj] at h
          simp only [vsub, List.zipWith_cons_cons, normSq_cons, dot_cons]
          have := ih ys h
          simp only [vsub] at this
          rw [this]; ring

theorem eq_of_normSq_vsub_zero {v w : Vec} (hl : v.length = w.length)
    (h : normSq (vsub v w) = 0) : v = w := by
  induction v generalizing w with
  | nil =>
      cases w with
      | nil => rfl
      | cons y ys => simp at hl
  | cons x xs ih =>
      cases w with
      | nil => simp at hl
      | cons y ys =>
          simp only [List.length_cons, Nat.succ_inj] at hl
          simp only [vsub, List.zipWith_cons_cons, normSq_cons] at h
          obtain ⟨hx, hxs⟩ := (add_eq_zero_iff_of_nonneg (mul_self_nonneg _)
            (normSq_nonneg _)).mp h
          have hx' : x = y := sub_eq_zero.mp (mul_self_eq_zero.mp hx)
          have hxs' : xs = ys := ih hl hxs
          rw [hx', hxs']

/-- Cauchy–Schwarz bound for unit vectors, via `0 ≤ ‖v − w‖²`. -/
theorem dot_le_one_of_unit {v w : Vec} (hl : v.length = w.length)
    (hv : normSq v = 1) (hw : normSq w = 1) : dot v w ≤ 1 := by
  have h0 := normSq_nonneg (vsub v w)
  rw [normSq_vsub v w hl, hv, hw] at h0
  linarith

/-- Strict Cauchy–Schwarz for distinct unit vectors. -/
theorem dot_lt_one_of_unit {v w : Vec} (hl : v.length = w.length)
    (hv : normSq v = 1) (hw : normSq w = 1) (hne : v ≠ w) : dot v w < 1 := by
  rcases lt_or_eq_of_le (dot_le_one_of_unit hl hv hw) with h | h
  · exact h
  · exfalso
    apply hne
    apply eq_of_normSq_vsub_zero hl
    rw [normSq_vsub v w hl, hv, hw, h]; ring

theorem normalize_of_not_pos {v : Vec} (h : ¬ 0 < normSq v) :
    normalize v = v := by
  rw [normalize, if_neg h]

theorem normalize_length (v : Vec) : (normalize v).length = v.length := by
  rw [normalize]
  split <;> simp

theorem normSq_eq_zero_of_not_pos {v : Vec} (h : ¬ 0 < normSq v) :
    normSq v = 0 :=
  le_antisymm (not_lt.mp h) (normSq_nonneg v)

theorem normSq_normalize_of_pos {v : Vec} (h : 0 < normSq v) :
    normSq (normalize v) = 1 := by
  have hs : Real.sqrt (normSq v) * Real.sqrt (normSq v) = normSq v :=
    Real.mul_self_sqrt (le_of_lt h)
  have hs0 : Real.sqrt (normSq v) ≠ 0 :=
    ne_of_gt (Real.sqrt_pos.mpr h)
  rw [normalize, if_pos h]
  unfold normSq
  rw [dot_map_mul_left, dot_map_mul_right]
  show (Real.sqrt (normSq v))⁻¹ * ((Real.sqrt (normSq v))⁻¹ * normSq v) = 1
  rw [← hs]
  field_simp

/-- The squared norm of every stored vector is `0` or `1`. -/
theorem normSq_normalize (v : Vec) :
    normSq (normalize v) = 0 ∨ normSq (normalize v) = 1 := by
  by_cases h : 0 < normSq v
  · exact Or.inr (normSq_normalize_of_pos h)
  · rw [normalize_of_not_pos h]
    exact Or.inl (normSq_eq_zero_of_not_pos h)

/-- Inner product on normalised vectors, rescaled by the original norms,
recovers the raw inner product: ranking by the stored inner product is
ranking by cosine similarity of the originals. -/
theorem dot_normalize_mul_norms (v q : Vec) :
    dot (normalize v) (normalize q) *
      (Real.sqrt (normSq v) * Real.sqrt (normSq q)) = dot v q := by
  by_cases hv : 0 < normSq v
  · by_cases hq : 0 < normSq q
    · have hsv : Real.sqrt (normSq v) * Real.sqrt (normSq v) = normSq v :=
        Real.mul_self_sqrt (le_of_lt hv)
      have hsq : Real.sqrt (normSq q) * Real.sqrt (normSq q) = normSq q :=
        Real.mul_self_sqrt (le_of_lt hq)
      have hsv0 : Real.sqrt (normSq v) ≠ 0 := ne_of_gt (Real.sqrt_pos.mpr hv)
      have hsq0 : Real.sqrt (normSq q) ≠ 0 := ne_of_gt (Real.sqrt_pos.mpr hq)
      rw [normalize, if_pos hv, normalize, if_pos hq,
        dot_map_mul_left, dot_map_mul_right]
      field_simp
    · have h0 : normSq q = 0 := normSq_eq_zero_of_not_pos hq
      have : dot q v = 0 := dot_eq_zero_of_normSq_zero h0 v
      rw [normalize_of_not_pos hq, h0, Real.sqrt_zero, dot_comm v q, this]
      ring
  · have h0 : normSq v = 0 := normSq_eq_zero_of_not_pos hv
    have : dot v q = 0 := dot_eq_zero_of_normSq_zero h0 q
    rw [normalize_of_not_pos hv, h0, Real.sqrt_zero, this]
    ring

/-! ### Structure of save_memory and the on-disk state -/

theorem save_memory_ok {dk : Disk} {e t : String} {v : Vec}
    (h : (normalize v).length = (_load_index dk e).d) :
    save_memory dk e t v = .ok (savedDisk dk e t v, toString dk.nextId) := by
  simp only [save_memory, FaissIndexFlatIP.add, savedDisk]
  rw [if_pos h]

theorem save_memory_err {dk : Disk} {e t : String} {v : Vec}
    (h : ¬ (normalize v).length = (_load_index dk e).d) :
    save_memory dk e t v = .error "faiss: vector dimension mismatch" := by
  simp only [save_memory, FaissIndexFlatIP.add]
  rw [if_neg h]

theorem save_memory_ok_elim {dk : Disk} {e t : String} {v : Vec}
    {dk' : Disk} {id : String}
    (hs : save_memory dk e t v = .ok (dk', id)) :
    (normalize v).length = (_load_index dk e).d ∧
    dk' = savedDisk dk e t v ∧ id = toString dk.nextId := by
  by_cases h : (normalize v).length = (_load_index dk e).d
  · rw [save_memory_ok h] at hs
    simp only [Except.ok.injEq, Prod.mk.injEq] at hs
    exact ⟨h, hs.1.symm, hs.2.symm⟩
  · rw [save_memory_err h] at hs
    cases hs

theorem _load_index_savedDisk (dk : Disk) (e t : String) (v : Vec) (e' : String) :
    _load_index (savedDisk dk e t v) e' =
      if _sanitise_name e' = _sanitise_name e then
        ⟨(_load_index dk e).d, (_load_index dk e).vecs ++ [normalize v]⟩
      else _load_index dk e' := by
  by_cases h : _sanitise_name e' = _sanitise_name e <;>
    simp [_load_index, savedDisk, h]

theorem _load_meta_savedDisk (dk : Disk) (e t : String) (v : Vec) (e' : String) :
    _load_meta (savedDisk dk e t v) e' =
      if _sanitise_name e' = _sanitise_name e then
        _load_meta dk e ++ [⟨toString dk.nextId, t, e⟩]
      else _load_meta dk e' := by
  by_cases h : _sanitise_name e' = _sanitise_name e <;>
    simp [_load_meta, savedDisk, h]

theorem consistent_emptyDisk : Consistent emptyDisk := by
  intro e
  refine ⟨rfl, rfl, ?_⟩
  intro v hv
  simp only [_load_index, emptyDisk] at hv
  cases hv

theorem consistent_save {dk : Disk} {e t : String} {v : Vec} {dk' : Disk}
    {id : String} (hc : Consistent dk)
    (hs : save_memory dk e t v = .ok (dk', id)) : Consistent dk' := by
  obtain ⟨hl, hdk, -⟩ := save_memory_ok_elim hs
  subst hdk
  intro e'
  rw [_load_meta_savedDisk, _load_index_savedDisk]
  by_cases h : _sanitise_name e' = _sanitise_name e
  · rw [if_pos h, if_pos h]
    obtain ⟨hlen, hd, hvecs⟩ := hc e
    refine ⟨?_, hd, ?_⟩
    · simp only [FaissIndexFlatIP.ntotal, List.length_append,
        List.length_singleton]
      simp only [FaissIndexFlatIP.ntotal] at hlen
      omega
    · intro w hw
      rcases List.mem_append.mp hw with hw | hw
      · exact hvecs w hw
      · rw [List.mem_singleton] at hw
        subst hw
        exact ⟨by rw [hl, hd], v, rfl⟩
  · rw [if_neg h, if_neg h]
    exact hc e'

theorem reachable_consistent {dk : Disk} (h : Reachable dk) : Consistent dk := by
  induction h with
  | empty => exact consistent_emptyDisk
  | save _ hs ih => exact consistent_save ih hs

/-! ### Structure of search_memories -/

theorem search_memories_zero {dk : Disk} {e : String} {q : Vec} {k : ℕ}
    (h : (_load_index dk e).ntotal = 0) :
    search_memories dk e q k = .ok [] := by
  simp only [search_memories]
  rw [if_pos h]

theorem search_memories_ok {dk : Disk} {e : String} {q : Vec} {k : ℕ}
    (h0 : ¬ (_load_index dk e).ntotal = 0)
    (hd : q.length = (_load_index dk e).d) :
    search_memories dk e q k = .ok
      ((topIndices (_load_index dk e).vecs (normalize q)
          (min k (_load_index dk e).ntotal)).filterMap
        (fun i => ((_load_meta dk e)[i]?).map MetaRecord.text)) := by
  simp only [search_memories, FaissIndexFlatIP.search]
  rw [if_neg h0, if_pos (by rw [normalize_length]; exact hd)]

theorem search_memories_dim_err {dk : Disk} {e : String} {q : Vec} {k : ℕ}
    (h0 : ¬ (_load_index dk e).ntotal = 0)
    (hd : ¬ q.length = (_load_index dk e).d) :
    search_memories dk e q k = .error "faiss: query dimension mismatch" := by
  simp only [search_memories, FaissIndexFlatIP.search]
  rw [if_neg h0, if_neg (by rw [normalize_length]; exact hd)]

/-! ### Ranking facts -/

theorem scorePairs_length (vecs : List Vec) (q : Vec) :
    (scorePairs vecs q).length = vecs.length := by
  simp [scorePairs]

theorem mem_scorePairs {vecs : List Vec} {q : Vec} {p : ℕ × ℝ} :
    p ∈ scorePairs vecs q ↔
      p.1 < vecs.length ∧ p.2 = dot (vecs.getD p.1 []) q := by
  constructor
  · intro hp
    simp only [scorePairs, List.mem_map, List.mem_range] at hp
    obtain ⟨i, hi, hip⟩ := hp
    rw [← hip]
    exact ⟨hi, rfl⟩
  · rintro ⟨h1, h2⟩
    simp only [scorePairs, List.mem_map, List.mem_range]
    refine ⟨p.1, h1, ?_⟩
    rw [← h2]

theorem topIndices_length (vecs : List Vec) (q : Vec) (k : ℕ) :
    (topIndices vecs q k).length = min k vecs.length := by
  simp [topIndices, List.length_take, List.length_insertionSort,
    scorePairs_length]

theorem topIndices_mem {vecs : List Vec} {q : Vec} {k i : ℕ}
    (h : i ∈ topIndices vecs q k) : i < vecs.length := by
  simp only [topIndices, List.mem_map] at h
  obtain ⟨p, hp, hpi⟩ := h
  have hp2 : p ∈ List.insertionSort scoreGe (scorePairs vecs q) :=
    List.mem_of_mem_take hp
  rw [List.mem_insertionSort] at hp2
  exact hpi ▸ (mem_scorePairs.mp hp2).1

theorem topIndices_sorted (vecs : List Vec) (q : Vec) (k : ℕ) :
    (topIndices vecs q k).Pairwise
      (fun i j => dot (vecs.getD j []) q ≤ dot (vecs.getD i []) q) := by
  have hs : (List.insertionSort scoreGe (scorePairs vecs q)).Pairwise scoreGe :=
    List.sorted_insertionSort scoreGe _
  have ht : ((List.insertionSort scoreGe (scorePairs vecs q)).take k).Pairwise
      scoreGe := hs.sublist (List.take_sublist k _)
  rw [topIndices, List.pairwise_map]
  refine List.Pairwise.imp_of_mem ?_ ht
  intro a b ha hb hab
  have ha' := mem_scorePairs.mp ((List.mem_insertionSort scoreGe).mp
    (List.mem_of_mem_take ha))
  have hb' := mem_scorePairs.mp ((List.mem_insertionSort scoreGe).mp
    (List.mem_of_mem_take hb))
  rw [← ha'.2, ← hb'.2]
  exact hab

theorem topIndices_perm {vecs : List Vec} {q : Vec} {k : ℕ}
    (h : vecs.length ≤ k) :
    (topIndices vecs q k).Perm (List.range vecs.length) := by
  unfold topIndices
  rw [List.take_of_length_le
    (by rw [List.length_insertionSort, scorePairs_length]; exact h)]
  have hperm := (List.perm_insertionSort scoreGe (scorePairs vecs q)).map Prod.fst
  refine hperm.trans ?_
  rw [show ((scorePairs vecs q).map Prod.fst = List.range vecs.length) by
    simp [scorePairs, List.map_map, Function.comp_def]]

theorem topIndices_head {vecs : List Vec} {q : Vec} {k j : ℕ}
    (hj : j < vecs.length)
    (hmax : ∀ i, i < vecs.length → i ≠ j →
      dot (vecs.getD i []) q < dot (vecs.getD j []) q)
    (hk : 1 ≤ k) :
    ∃ rest, topIndices vecs q k = j :: rest := by
  have hlen : (List.insertionSort scoreGe (scorePairs vecs q)).length
      = vecs.length := by
    rw [List.length_insertionSort, scorePairs_length]
  have hne : List.insertionSort scoreGe (scorePairs vecs q) ≠ [] := by
    intro h0
    rw [h0] at hlen
    simp at hlen
    omega
  obtain ⟨p, rest, hcons⟩ := List.exists_cons_of_ne_nil hne
  have hpmem : p ∈ scorePairs vecs q := by
    rw [← List.mem_insertionSort scoreGe, hcons]
    exact List.mem_cons_self p rest
  obtain ⟨hp1, hp2⟩ := mem_scorePairs.mp hpmem
  have hj_pair : (j, dot (vecs.getD j []) q)
      ∈ List.insertionSort scoreGe (scorePairs vecs q) := by
    rw [List.mem_insertionSort]
    exact mem_scorePairs.mpr ⟨hj, rfl⟩
  have hp1j : p.1 = j := by
    by_contra hne'
    have hlt : p.2 < dot (vecs.getD j []) q := by
      rw [hp2]; exact hmax p.1 hp1 hne'
    have hsorted : (List.insertionSort scoreGe (scorePairs vecs q)).Pairwise
        scoreGe := List.sorted_insertionSort scoreGe _
    rw [hcons] at hj_pair hsorted
    rcases List.mem_cons.mp hj_pair with heq | hmem
    · exact hne' (by rw [← heq])
    · have hle := (List.pairwise_cons.mp hsorted).1 _ hmem
      simp only [scoreGe] at hle
      exact absurd hle (not_le.mpr hlt)
  obtain ⟨k', rfl⟩ : ∃ k', k = k' + 1 := ⟨k - 1, by omega⟩
  refine ⟨(rest.take k').map Prod.fst, ?_⟩
  unfold topIndices
  rw [hcons, List.take_succ_cons, List.map_cons, hp1j]

/-! ### List bookkeeping -/

theorem getElem?_concat_self {α : Type _} (l : List α) (a : α) :
    (l ++ [a])[l.length]? = some a := by
  rw [List.getElem?_append_right (le_refl _)]
  simp

theorem getD_append_left' {α : Type _} {l l' : List α} {i : ℕ}
    (h : i < l.length) (d : α) : (l ++ l').getD i d = l.getD i d := by
  simp [List.getD_eq_getElem?_getD, List.getElem?_append_left h]

theorem filterMap_textAt {meta : List MetaRecord} {idxs : List ℕ}
    (h : ∀ i ∈ idxs, i < meta.length) :
    idxs.filterMap (fun i => (meta[i]?).map MetaRecord.text) =
      idxs.map (fun i => (meta.getD i ⟨"", "", ""⟩).text) := by
  induction idxs with
  | nil => rfl
  | cons i rest ih =>
      have hi := h i (List.mem_cons_self i rest)
      have hrest := ih (fun j hj => h j (List.mem_cons_of_mem _ hj))
      rw [List.filterMap_cons, List.map_cons, List.getElem?_eq_getElem hi]
      simp only [Option.map_some']
      rw [hrest]
      congr 1
      simp [List.getD_eq_getElem?_getD, List.getElem?_eq_getElem hi]

theorem range_map_getD {α β : Type _} (l : List α) (d : α) (f : α → β) :
    (List.range l.length).map (fun i => f (l.getD i d)) = l.map f := by
  apply List.ext_getElem
  · simp
  · intro i h1 h2
    simp only [List.length_map, List.length_range] at h1
    simp [List.getElem_map, List.getElem_range,
      List.getD_eq_getElem?_getD, List.getElem?_eq_getElem h1]

/-! ### Evaluation of the concrete inputs -/

theorem zv_length : zv.length = 384 := by
  show (List.replicate 384 (0 : ℝ)).length = 384
  rw [List.length_replicate]

theorem normSq_zv : normSq zv = 0 := dot_replicate_zero 384 zv

theorem normalize_zv : normalize zv = zv :=
  normalize_of_not_pos (by rw [normSq_zv]; exact lt_irrefl 0)

theorem e1v_length : e1v.length = 384 := by
  show ((1 : ℝ) :: List.replicate 383 0).length = 384
  rw [List.length_cons, List.length_replicate]

theorem dot_e1v_e1v : dot e1v e1v = 1 := by
  show dot (1 :: List.replicate 383 0) (1 :: List.replicate 383 0) = 1
  rw [dot_cons, dot_replicate_zero]
  norm_num

theorem normSq_e1v : normSq e1v = 1 := dot_e1v_e1v

theorem normalize_e1v : normalize e1v = e1v := by
  rw [normalize, if_pos (by rw [normSq_e1v]; norm_num), normSq_e1v,
    Real.sqrt_one, inv_one]
  simp

theorem load_index_emptyDisk (e : String) :
    _load_index emptyDisk e = ⟨VECTOR_DIM, []⟩ := rfl

theorem load_meta_emptyDisk (e : String) : _load_meta emptyDisk e = [] := rfl

/-- `save_memory emptyDisk "u@x.co" "world" e1v` succeeds and produces
exactly the `dHello` disk. -/
theorem save_world :
    save_memory emptyDisk "u@x.co" "world" e1v = .ok (dHello, "0") := by
  have h : save_memory emptyDisk "u@x.co" "world" e1v =
      .ok (savedDisk emptyDisk "u@x.co" "world" e1v, toString (0 : ℕ)) :=
    save_memory_ok (by rw [normalize_e1v, e1v_length]; rfl)
  rw [h]
  have hsd : savedDisk emptyDisk "u@x.co" "world" e1v = dHello := by
    unfold savedDisk
    simp only [normalize_e1v]
    rfl
  rw [hsd]
  rfl

theorem dHello_reachable : Reachable dHello :=
  Reachable.save Reachable.empty save_world

theorem load_index_dHello : _load_index dHello "u@x.co" = ⟨384, [e1v]⟩ := rfl

theorem load_meta_dHello :
    _load_meta dHello "u@x.co" = [⟨"0", "world", "u@x.co"⟩] := rfl

/-- Length bound of any successful search. -/
theorem search_memories_length_le {dk : Disk} {e : String} {q : Vec}
    {k : ℕ} {l : List String}
    (h : search_memories dk e q k = .ok l) : l.length ≤ k := by
  by_cases h0 : (_load_index dk e).ntotal = 0
  · rw [search_memories_zero h0] at h
    cases h
    simp
  · by_cases hd : q.length = (_load_index dk e).d
    · rw [search_memories_ok h0 hd] at h
      cases h
      calc _ ≤ (topIndices (_load_index dk e).vecs (normalize q)
            (min k (_load_index dk e).ntotal)).length :=
            List.length_filterMap_le _ _
        _ = min (min k (_load_index dk e).ntotal)
            (_load_index dk e).vecs.length := topIndices_length _ _ _
        _ ≤ k := by omega
    · rw [search_memories_dim_err h0 hd] at h
      cases h

/-! ### Claims -/

/-- C1 (amended): owner isolation holds for every two owners whose
sanitised directory names differ: a record saved under `A` neither appears
in nor influences any `search_memories` result for `B` — the search after
the save returns exactly what it returned before.  (As literally stated,
for all distinct owner strings, the claim is false: `_sanitise_name` is
not injective, see the counterexample.) -/
theorem c1_owner_isolation (dk : Disk) (A B t : String) (v q : Vec)
    (dk' : Disk) (id : String) (k : ℕ)
    (hAB : _sanitise_name A ≠ _sanitise_name B)
    (hsave : save_memory dk A t v = .ok (dk', id)) :
    search_memories dk' B q k = search_memories dk B q k := by
  obtain ⟨-, hdk, -⟩ := save_memory_ok_elim hsave
  subst hdk
  have hidx : _load_index (savedDisk dk A t v) B = _load_index dk B := by
    rw [_load_index_savedDisk, if_neg (fun hh => hAB hh.symm)]
  have hmeta : _load_meta (savedDisk dk A t v) B = _load_meta dk B := by
    rw [_load_meta_savedDisk, if_neg (fun hh => hAB hh.symm)]
  simp only [search_memories, hidx, hmeta]

/-- C1 witness: concrete instance of the amended isolation theorem for two
owners with distinct sanitised names. -/
theorem c1_owner_isolation_witness :
    _sanitise_name "a@b.co" ≠ _sanitise_name "c@d.co" ∧
    ∃ r, save_memory emptyDisk "a@b.co" "hi" zv = .ok r ∧
      search_memories r.1 "c@d.co" zv 5 =
        search_memories emptyDisk "c@d.co" zv 5 := by
  have hsave : save_memory emptyDisk "a@b.co" "hi" zv =
      .ok (savedDisk emptyDisk "a@b.co" "hi" zv, toString (0 : ℕ)) :=
    save_memory_ok (by rw [normalize_zv, zv_length]; rfl)
  exact ⟨by decide, _, hsave,
    c1_owner_isolation emptyDisk "a@b.co" "c@d.co" "hi" zv zv _ _ 5
      (by decide) hsave⟩

/-- C1 counterexample: `"a.b@c.com"` and `"a+b@c.com"` are two distinct
owners, yet the record `"secret"` saved under the first is returned by a
search issued for the second — `_sanitise_name` maps both to the same
partition directory `"a_b_c_com"`. -/
theorem c1_owner_isolation_counterexample :
    ("a.b@c.com" : String) ≠ "a+b@c.com" ∧
    ∃ r, save_memory emptyDisk "a.b@c.com" "secret" e1v = .ok r ∧
      search_memories r.1 "a+b@c.com" e1v 1 = .ok ["secret"] := by
  have hsave : save_memory emptyDisk "a.b@c.com" "secret" e1v =
      .ok (savedDisk emptyDisk "a.b@c.com" "secret" e1v, toString (0 : ℕ)) :=
    save_memory_ok (by rw [normalize_e1v, e1v_length]; rfl)
  refine ⟨by decide, _, hsave, ?_⟩
  show search_memories (savedDisk emptyDisk "a.b@c.com" "secret" e1v)
      "a+b@c.com" e1v 1 = .ok ["secret"]
  have hsan : _sanitise_name "a+b@c.com" = _sanitise_name "a.b@c.com" := by
    decide
  have hidx : _load_index (savedDisk emptyDisk "a.b@c.com" "secret" e1v)
      "a+b@c.com" = ⟨384, [e1v]⟩ := by
    rw [_load_index_savedDisk, if_pos hsan, normalize_e1v]
    rfl
  have hmeta : _load_meta (savedDisk emptyDisk "a.b@c.com" "secret" e1v)
      "a+b@c.com" = [⟨"0", "secret", "a.b@c.com"⟩] := by
    rw [_load_meta_savedDisk, if_pos hsan]
    rfl
  have h0 : ¬ (_load_index (savedDisk emptyDisk "a.b@c.com" "secret" e1v)
      "a+b@c.com").ntotal = 0 := by
    rw [hidx]
    simp [FaissIndexFlatIP.ntotal]
  have hdim : e1v.length = (_load_index
      (savedDisk emptyDisk "a.b@c.com" "secret" e1v) "a+b@c.com").d := by
    rw [hidx, e1v_length]
  rw [search_memories_ok h0 hdim, hidx, hmeta]
  simp [topIndices, scorePairs, normalize_e1v, FaissIndexFlatIP.ntotal,
    List.range_succ]

/-- C7: a `save_memory` whose vector does not have length 384 fails with
the FAISS dimension error (`index.add` asserts), so nothing reaches the
write-back of either file: the call returns no new disk state, the vector
is never truncated or padded. -/
theorem c7_dimension_rejection (dk : Disk) (e t : String) (v : Vec)
    (hreach : Reachable dk) (hv : v.length ≠ VECTOR_DIM) :
    save_memory dk e t v = .error "faiss: vector dimension mismatch" := by
  have hd : (_load_index dk e).d = VECTOR_DIM :=
    ((reachable_consistent hreach) e).2.1
  exact save_memory_err (by rw [normalize_length, hd]; exact hv)

/-- C7 witness: a 1-dimensional vector is rejected on the empty disk. -/
theorem c7_dimension_rejection_witness :
    save_memory emptyDisk "u@x.co" "t" [(0 : ℝ)] =
      .error "faiss: vector dimension mismatch" :=
  c7_dimension_rejection emptyDisk "u@x.co" "t" [(0 : ℝ)]
    Reachable.empty (by simp [VECTOR_DIM])

/-- C9: on every reachable disk the sidecar length equals the index
population for every owner, and a successful `save_memory` appends exactly
one entry to each file of the owner's partition, preserving positional
correspondence. -/
theorem c9_sidecar_index_correspondence :
    (∀ dk : Disk, Reachable dk → ∀ e : String,
        (_load_meta dk e).length = (_load_index dk e).ntotal) ∧
    (∀ (dk : Disk) (e t : String) (v : Vec) (dk' : Disk) (id : String),
        save_memory dk e t v = .ok (dk', id) →
        _load_meta dk' e = _load_meta dk e ++ [⟨id, t, e⟩] ∧
        (_load_index dk' e).vecs = (_load_index dk e).vecs ++ [normalize v]) := by
  constructor
  · intro dk h e
    exact ((reachable_consistent h) e).1
  · intro dk e t v dk' id hsave
    obtain ⟨-, hdk, hid⟩ := save_memory_ok_elim hsave
    subst hdk
    subst hid
    constructor
    · rw [_load_meta_savedDisk, if_pos rfl]
    · rw [_load_index_savedDisk, if_pos rfl]

/-- C9 witness: the correspondence evaluated on the concrete one-record
disk produced by a real save. -/
theorem c9_sidecar_index_correspondence_witness :
    (_load_meta dHello "u@x.co").length = (_load_index dHello "u@x.co").ntotal ∧
    _load_meta dHello "u@x.co" =
      _load_meta emptyDisk "u@x.co" ++ [⟨"0", "world", "u@x.co"⟩] ∧
    (_load_index dHello "u@x.co").vecs =
      (_load_index emptyDisk "u@x.co").vecs ++ [normalize e1v] :=
  ⟨c9_sidecar_index_correspondence.1 dHello dHello_reachable "u@x.co",
   c9_sidecar_index_correspondence.2 emptyDisk "u@x.co" "world" e1v dHello
     "0" save_world⟩

/-- C8: every vector is L2-normalised on entry to the index (`save_memory`
stores `normalize v`), every nonzero vector normalises to a unit vector,
and the inner product of two normalised vectors rescaled by the original
norms is the raw inner product — so ranking by stored inner product
against a normalised query is ranking by cosine similarity of the original
vectors.  (`search_memories` applies `normalize` to its query before
calling the index, by definition.) -/
theorem c8_cosine_equivalence :
    (∀ (dk : Disk) (e t : String) (v : Vec) (dk' : Disk) (id : String),
        save_memory dk e t v = .ok (dk', id) →
        (_load_index dk' e).vecs = (_load_index dk e).vecs ++ [normalize v]) ∧
    (∀ v : Vec, normSq v ≠ 0 → normSq (normalize v) = 1) ∧
    (∀ v q : Vec,
        dot (normalize v) (normalize q) *
          (Real.sqrt (normSq v) * Real.sqrt (normSq q)) = dot v q) := by
  refine ⟨?_, ?_, dot_normalize_mul_norms⟩
  · intro dk e t v dk' id hsave
    obtain ⟨-, hdk, -⟩ := save_memory_ok_elim hsave
    subst hdk
    rw [_load_index_savedDisk, if_pos rfl]
  · intro v hv
    exact normSq_normalize_of_pos (lt_of_le_of_ne (normSq_nonneg v) (Ne.symm hv))

/-- C8 witness: the three parts instantiated at a real save and at the
concrete unit vector `e1v`. -/
theorem c8_cosine_equivalence_witness :
    (_load_index dHello "u@x.co").vecs =
      (_load_index emptyDisk "u@x.co").vecs ++ [normalize e1v] ∧
    normSq (normalize e1v) = 1 ∧
    dot (normalize e1v) (normalize e1v) *
      (Real.sqrt (normSq e1v) * Real.sqrt (normSq e1v)) = dot e1v e1v :=
  ⟨c8_cosine_equivalence.1 emptyDisk "u@x.co" "world" e1v dHello "0"
      save_world,
   c8_cosine_equivalence.2.1 e1v (by rw [normSq_e1v]; norm_num),
   c8_cosine_equivalence.2.2 e1v e1v⟩

/-- C2 (amended): the code has no corruption detection at all.  On any
disk state — including one whose sidecar length disagrees with the index
population — `save_memory` succeeds (appending to both files) and
`search_memories` succeeds, silently returning only the positions that do
have a sidecar entry; no `Corrupted`-style error is ever raised. -/
theorem c2_corruption_silent (dk : Disk) (e t : String) (v q : Vec) (k : ℕ)
    (hv : (normalize v).length = (_load_index dk e).d)
    (hq : q.length = (_load_index dk e).d) :
    (∃ r, save_memory dk e t v = .ok r) ∧
    (∃ l, search_memories dk e q k = .ok l ∧
       ∀ s ∈ l, ∃ m ∈ _load_meta dk e, s = m.text) := by
  constructor
  · exact ⟨_, save_memory_ok hv⟩
  · by_cases h0 : (_load_index dk e).ntotal = 0
    · exact ⟨[], search_memories_zero h0, by simp⟩
    · refine ⟨_, search_memories_ok h0 hq, ?_⟩
      intro s hs
      rw [List.mem_filterMap] at hs
      obtain ⟨i, -, hmap⟩ := hs
      cases hm : (_load_meta dk e)[i]? with
      | none => rw [hm] at hmap; cases hmap
      | some m =>
          rw [hm] at hmap
          simp only [Option.map_some'] at hmap
          exact ⟨m, List.getElem?_mem hm, (Option.some.inj hmap).symm⟩

/-- C2 witness: the silent behaviour instantiated on the concrete
corrupted partition (index population 1, sidecar missing). -/
theorem c2_corruption_silent_witness :
    (normalize e1v).length = (_load_index corruptDisk "u@x").d ∧
    ((∃ r, save_memory corruptDisk "u@x" "t" e1v = .ok r) ∧
     (∃ l, search_memories corruptDisk "u@x" e1v 5 = .ok l ∧
        ∀ s ∈ l, ∃ m ∈ _load_meta corruptDisk "u@x", s = m.text)) := by
  have hv : (normalize e1v).length = (_load_index corruptDisk "u@x").d := by
    rw [normalize_e1v, e1v_length]
    rfl
  have hq : e1v.length = (_load_index corruptDisk "u@x").d := by
    rw [e1v_length]
    rfl
  exact ⟨hv, c2_corruption_silent corruptDisk "u@x" "t" e1v e1v 5 hv hq⟩

/-- C2 counterexample: on the corrupted partition (one indexed vector, no
sidecar) the first accesses do **not** raise a corruption error:
`search_memories` returns `.ok []`, silently dropping the indexed record,
and `save_memory` succeeds as well. -/
theorem c2_corruption_counterexample :
    (_load_meta corruptDisk "u@x").length ≠
      (_load_index corruptDisk "u@x").ntotal ∧
    search_memories corruptDisk "u@x" e1v 5 = .ok [] ∧
    (∃ r, save_memory corruptDisk "u@x" "t" e1v = .ok r) := by
  have hidx : _load_index corruptDisk "u@x" = ⟨384, [e1v]⟩ := rfl
  have hmeta : _load_meta corruptDisk "u@x" = [] := rfl
  have h0 : ¬ (_load_index corruptDisk "u@x").ntotal = 0 := by
    rw [hidx]
    simp [FaissIndexFlatIP.ntotal]
  have hdim : e1v.length = (_load_index corruptDisk "u@x").d := by
    rw [hidx, e1v_length]
  refine ⟨by rw [hidx, hmeta]; simp [FaissIndexFlatIP.ntotal], ?_,
    ⟨_, save_memory_ok (by rw [normalize_e1v, e1v_length, hidx])⟩⟩
  rw [search_memories_ok h0 hdim, hidx, hmeta]
  simp [topIndices, scorePairs, normalize_e1v, FaissIndexFlatIP.ntotal,
    List.range_succ]

/-- C4 (amended): the `/remember` handler performs no empty-text
validation and the code defines no `InvalidInput` error.  Empty text is
forwarded to the embedding provider like any other text; whenever the
provider answers 200 with a well-formed 384-dimensional embedding, the
empty-text record **is** stored and the handler answers `"saved"`. -/
theorem c4_empty_text_no_validation (provider : String → HfResponse)
    (dk : Disk) (e : String) (v : Vec)
    (hreach : Reachable dk)
    (hp : text_to_vector provider "" = .ok v)
    (hv : v.length = VECTOR_DIM) :
    ∃ dk' id, remember provider dk ⟨e, ""⟩ = .ok (dk', ⟨"saved", id⟩) ∧
      _load_meta dk' e = _load_meta dk e ++ [⟨id, "", e⟩] := by
  have hd : (_load_index dk e).d = VECTOR_DIM :=
    ((reachable_consistent hreach) e).2.1
  have hsave : save_memory dk e "" v =
      .ok (savedDisk dk e "" v, toString dk.nextId) :=
    save_memory_ok (by rw [normalize_length, hv, hd])
  refine ⟨savedDisk dk e "" v, toString dk.nextId, ?_, ?_⟩
  · simp only [remember, hp, hsave]
  · rw [_load_meta_savedDisk, if_pos rfl]

/-- C4 witness: a provider returning a valid embedding for the empty
string makes `remember` store the empty-text record. -/
theorem c4_empty_text_no_validation_witness :
    text_to_vector hfOk "" = .ok zv ∧
    ∃ dk' id, remember hfOk emptyDisk ⟨"u@x.co", ""⟩ = .ok (dk', ⟨"saved", id⟩) ∧
      _load_meta dk' "u@x.co" =
        _load_meta emptyDisk "u@x.co" ++ [⟨id, "", "u@x.co"⟩] :=
  ⟨rfl, c4_empty_text_no_validation hfOk emptyDisk "u@x.co" zv
    Reachable.empty rfl zv_length⟩

/-- C4 counterexample: with a provider that embeds the empty string,
`remember` on empty text succeeds and a record is stored — it is not
rejected with any error, let alone an `InvalidInput` one. -/
theorem c4_empty_text_counterexample :
    ∃ r, remember hfOk emptyDisk ⟨"u@x.co", ""⟩ = .ok r ∧
      (_load_meta r.1 "u@x.co").length = 1 := by
  have hsave : save_memory emptyDisk "u@x.co" "" zv =
      .ok (savedDisk emptyDisk "u@x.co" "" zv, toString (0 : ℕ)) :=
    save_memory_ok (by rw [normalize_zv, zv_length]; rfl)
  refine ⟨(savedDisk emptyDisk "u@x.co" "" zv, ⟨"saved", toString (0 : ℕ)⟩),
    ?_, ?_⟩
  · simp only [remember, show text_to_vector hfOk "" = .ok zv from rfl, hsave]
  · show (_load_meta (savedDisk emptyDisk "u@x.co" "" zv) "u@x.co").length = 1
    rw [_load_meta_savedDisk, if_pos rfl, load_meta_emptyDisk]
    simp

/-- C10: the `/recall` handler always searches with the fixed limit 5 —
`RecallRequest` has only the fields `email` and `query_text`, so no caller
input can change the bound — and therefore every successful response
carries at most 5 memories. -/
theorem c10_recall_limit (provider : String → HfResponse) (dk : Disk)
    (req : RecallRequest) (resp : RecallResponse)
    (h : recall_handler provider dk req = .ok resp) :
    resp.memories.length ≤ 5 := by
  cases htx : text_to_vector provider req.query_text with
  | error err =>
      simp only [recall_handler, htx] at h
      exact Except.noConfusion h
  | ok qv =>
      simp only [recall_handler, htx] at h
      cases hs : search_memories dk req.email qv 5 with
      | error err =>
          simp only [hs] at h
          exact Except.noConfusion h
      | ok mems =>
          simp only [hs] at h
          injection h with h2
          subst h2
          exact search_memories_length_le hs

/-- C10 witness: a concrete `/recall` call succeeds and returns at most 5
memories. -/
theorem c10_recall_limit_witness :
    ∃ resp, recall_handler hfOk emptyDisk ⟨"u@x.co", "hi"⟩ = .ok resp ∧
      resp.memories.length ≤ 5 := by
  have hr : recall_handler hfOk emptyDisk ⟨"u@x.co", "hi"⟩ =
      .ok ⟨"u@x.co", "hi", []⟩ := by
    simp only [recall_handler, show text_to_vector hfOk "hi" = .ok zv from rfl,
      search_memories_zero
        (show (_load_index emptyDisk "u@x.co").ntotal = 0 from rfl)]
  exact ⟨_, hr, c10_recall_limit hfOk emptyDisk ⟨"u@x.co", "hi"⟩ _ hr⟩

/-- C5: search result shape on any reachable disk.  With zero stored
records the search returns `.ok []` — no error — for any query and limit.
Otherwise, for a query of the configured dimension, it returns the texts
of exactly `min k n` distinct index positions, ordered by descending
stored inner product against the normalised query (so `n < k` yields
exactly `n` texts). -/
theorem c5_search_result_shape (dk : Disk) (e : String) (q : Vec) (k : ℕ)
    (hreach : Reachable dk) :
    ((_load_index dk e).ntotal = 0 → search_memories dk e q k = .ok []) ∧
    (q.length = VECTOR_DIM →
      ∃ idxs : List ℕ,
        search_memories dk e q k =
          .ok (idxs.map (fun i => ((_load_meta dk e).getD i ⟨"", "", ""⟩).text)) ∧
        idxs.length = min k (_load_index dk e).ntotal ∧
        (∀ i ∈ idxs, i < (_load_index dk e).ntotal) ∧
        idxs.Pairwise (fun i j =>
          dot ((_load_index dk e).vecs.getD j []) (normalize q) ≤
          dot ((_load_index dk e).vecs.getD i []) (normalize q))) := by
  obtain ⟨hlen, hd, -⟩ := (reachable_consistent hreach) e
  constructor
  · intro h0
    exact search_memories_zero h0
  · intro hq
    by_cases h0 : (_load_index dk e).ntotal = 0
    · refine ⟨[], ?_, ?_, ?_, ?_⟩
      · rw [search_memories_zero h0]
        rfl
      · rw [h0]
        simp
      · intro i hi
        cases hi
      · exact List.Pairwise.nil
    · have hdim : q.length = (_load_index dk e).d := by rw [hq, hd]
      refine ⟨topIndices (_load_index dk e).vecs (normalize q)
        (min k (_load_index dk e).ntotal), ?_, ?_, ?_, ?_⟩
      · rw [search_memories_ok h0 hdim]
        congr 1
        apply filterMap_textAt
        intro i hi
        rw [hlen]
        exact topIndices_mem hi
      · rw [topIndices_length]
        have hnt : (_load_index dk e).ntotal = (_load_index dk e).vecs.length :=
          rfl
        omega
      · intro i hi
        exact topIndices_mem hi
      · exact topIndices_sorted _ _ _

/-- C5 witness: the shape statement instantiated on the concrete
one-record disk with limit 5 (so one result comes back). -/
theorem c5_search_result_shape_witness :
    ∃ idxs : List ℕ,
      search_memories dHello "u@x.co" e1v 5 =
        .ok (idxs.map
          (fun i => ((_load_meta dHello "u@x.co").getD i ⟨"", "", ""⟩).text)) ∧
      idxs.length = min 5 (_load_index dHello "u@x.co").ntotal ∧
      (∀ i ∈ idxs, i < (_load_index dHello "u@x.co").ntotal) ∧
      idxs.Pairwise (fun i j =>
        dot ((_load_index dHello "u@x.co").vecs.getD j []) (normalize e1v) ≤
        dot ((_load_index dHello "u@x.co").vecs.getD i []) (normalize e1v)) :=
  (c5_search_result_shape dHello "u@x.co" e1v 5 dHello_reachable).2 e1v_length

/-- C6: a successful save is written through to the two on-disk files
synchronously — reloading the partition purely from disk shows exactly
the previous records plus the new one — and a search over the reloaded
partition with limit equal to the record count returns precisely those
records' texts (as a permutation).  The module keeps no state outside the
files, so the reloaded partition is the partition after restart. -/
theorem c6_restart_durability (dk : Disk) (e t : String) (v : Vec)
    (dk' : Disk) (id : String)
    (hreach : Reachable dk)
    (hsave : save_memory dk e t v = .ok (dk', id)) :
    _load_meta dk' e = _load_meta dk e ++ [⟨id, t, e⟩] ∧
    (_load_index dk' e).vecs = (_load_index dk e).vecs ++ [normalize v] ∧
    (∀ q : Vec, q.length = VECTOR_DIM →
      ∃ l, search_memories dk' e q ((_load_index dk' e).ntotal) = .ok l ∧
        l.Perm ((_load_meta dk' e).map MetaRecord.text)) := by
  have hc' : Consistent dk' :=
    consistent_save (reachable_consistent hreach) hsave
  obtain ⟨hvl, hdk, hid⟩ := save_memory_ok_elim hsave
  subst hdk
  subst hid
  refine ⟨by rw [_load_meta_savedDisk, if_pos rfl],
    by rw [_load_index_savedDisk, if_pos rfl], ?_⟩
  intro q hq
  obtain ⟨hlen', hd', -⟩ := hc' e
  have h0 : ¬ (_load_index (savedDisk dk e t v) e).ntotal = 0 := by
    rw [_load_index_savedDisk, if_pos rfl]
    simp [FaissIndexFlatIP.ntotal]
  have hdim : q.length = (_load_index (savedDisk dk e t v) e).d := by
    rw [hq, hd']
  rw [search_memories_ok h0 hdim, Nat.min_self]
  have hmem : ∀ i ∈ topIndices (_load_index (savedDisk dk e t v) e).vecs
      (normalize q) (_load_index (savedDisk dk e t v) e).ntotal,
      i < (_load_meta (savedDisk dk e t v) e).length := by
    intro i hi
    rw [hlen']
    exact topIndices_mem hi
  rw [filterMap_textAt hmem]
  refine ⟨_, rfl, ?_⟩
  have hperm := @topIndices_perm ((_load_index (savedDisk dk e t v) e).vecs)
    (normalize q) ((_load_index (savedDisk dk e t v) e).ntotal) (le_refl _)
  have hmap := hperm.map
    (fun i => ((_load_meta (savedDisk dk e t v) e).getD i ⟨"", "", ""⟩).text)
  refine hmap.trans ?_
  rw [show (_load_index (savedDisk dk e t v) e).vecs.length
      = (_load_meta (savedDisk dk e t v) e).length from hlen'.symm]
  rw [range_map_getD]

/-- C6 witness: the durability statement instantiated on the concrete
save of `"world"` (so the reloaded one-record partition is searched). -/
theorem c6_restart_durability_witness :
    _load_meta dHello "u@x.co" =
      _load_meta emptyDisk "u@x.co" ++ [⟨"0", "world", "u@x.co"⟩] ∧
    (_load_index dHello "u@x.co").vecs =
      (_load_index emptyDisk "u@x.co").vecs ++ [normalize e1v] ∧
    (∀ q : Vec, q.length = VECTOR_DIM →
      ∃ l, search_memories dHello "u@x.co" q
          ((_load_index dHello "u@x.co").ntotal) = .ok l ∧
        l.Perm ((_load_meta dHello "u@x.co").map MetaRecord.text)) :=
  c6_restart_durability emptyDisk "u@x.co" "world" e1v dHello "0"
    Reachable.empty save_world

theorem getD_concat_self {α : Type _} (l : List α) (a d : α) :
    (l ++ [a]).getD l.length d = a := by
  rw [List.getD_eq_getElem?_getD, getElem?_concat_self, Option.getD_some]

theorem getD_mem {α : Type _} {l : List α} {i : ℕ} (h : i < l.length)
    (d : α) : l.getD i d ∈ l := by
  rw [List.getD_eq_getElem?_getD, List.getElem?_eq_getElem h, Option.getD_some]
  exact List.getElem_mem h

/-- When every previously stored vector scores strictly below the query's
self-score, the freshly appended copy of the query ranks first. -/
theorem topIndices_concat_head {vecs : List Vec} {u : Vec} {k : ℕ}
    (hmax : ∀ i, i < vecs.length → dot (vecs.getD i []) u < dot u u)
    (hk : 1 ≤ k) :
    ∃ rest, topIndices (vecs ++ [u]) u k = vecs.length :: rest := by
  apply topIndices_head
  · simp
  · intro i hi hne
    have hilt : i < vecs.length := by
      simp [List.length_append] at hi
      omega
    rw [getD_append_left' hilt, getD_concat_self]
    exact hmax i hilt
  · exact hk

/-- C3 (amended): read-after-write.  If the embedding of the saved text is
nonzero and no previously stored vector of the owner's partition equals
its normalisation, then a successful `save_memory` followed — with no
intervening write — by a `search_memories` for the same owner with the
same vector and limit 1 returns exactly the saved text as the top (and
only) result.  (As literally stated, over arbitrary prior saves, the claim
is false: an earlier record whose stored vector ties the new one wins the
FAISS tie-break, see the counterexample.) -/
theorem c3_read_after_write (dk : Disk) (e t : String) (v : Vec)
    (dk' : Disk) (id : String)
    (hreach : Reachable dk)
    (hnz : normSq v ≠ 0)
    (hfresh : ∀ w ∈ (_load_index dk e).vecs, w ≠ normalize v)
    (hsave : save_memory dk e t v = .ok (dk', id)) :
    search_memories dk' e v 1 = .ok [t] := by
  obtain ⟨hlen, hd, hgood⟩ := (reachable_consistent hreach) e
  obtain ⟨hvl, hdk, -⟩ := save_memory_ok_elim hsave
  subst hdk
  have hposv : 0 < normSq v := lt_of_le_of_ne (normSq_nonneg v) (Ne.symm hnz)
  have hunit : normSq (normalize v) = 1 := normSq_normalize_of_pos hposv
  have hvnlen : (normalize v).length = VECTOR_DIM := by rw [hvl, hd]
  have hidx' : _load_index (savedDisk dk e t v) e =
      ⟨(_load_index dk e).d, (_load_index dk e).vecs ++ [normalize v]⟩ := by
    rw [_load_index_savedDisk, if_pos rfl]
  have hmeta' : _load_meta (savedDisk dk e t v) e =
      _load_meta dk e ++ [⟨toString dk.nextId, t, e⟩] := by
    rw [_load_meta_savedDisk, if_pos rfl]
  have h0 : ¬ (_load_index (savedDisk dk e t v) e).ntotal = 0 := by
    rw [hidx']
    simp [FaissIndexFlatIP.ntotal]
  have hdim : v.length = (_load_index (savedDisk dk e t v) e).d := by
    rw [hidx', ← hvl, normalize_length]
  rw [search_memories_ok h0 hdim, hidx', hmeta']
  show Except.ok ((topIndices ((_load_index dk e).vecs ++ [normalize v])
      (normalize v)
      (min 1 ((_load_index dk e).vecs ++ [normalize v]).length)).filterMap
      (fun i => ((_load_meta dk e ++ [⟨toString dk.nextId, t, e⟩])[i]?).map
        MetaRecord.text)) = .ok [t]
  have hmin : min 1 ((_load_index dk e).vecs ++ [normalize v]).length = 1 := by
    simp [List.length_append]
  rw [hmin]
  have hmax' : ∀ i, i < (_load_index dk e).vecs.length →
      dot ((_load_index dk e).vecs.getD i []) (normalize v) <
        dot (normalize v) (normalize v) := by
    intro i hilt
    have hwmem : (_load_index dk e).vecs.getD i [] ∈ (_load_index dk e).vecs :=
      getD_mem hilt []
    obtain ⟨hwlen, u, hu⟩ := hgood _ hwmem
    have hne := hfresh _ hwmem
    rw [show dot (normalize v) (normalize v) = 1 from hunit]
    rcases normSq_normalize u with h0w | h1w
    · rw [← hu] at h0w
      rw [dot_eq_zero_of_normSq_zero h0w]
      norm_num
    · rw [← hu] at h1w
      exact dot_lt_one_of_unit (by rw [hwlen, hvnlen]) h1w hunit hne
  obtain ⟨rest, htop⟩ := topIndices_concat_head hmax' le_rfl
  have hlen1 : ((_load_index dk e).vecs.length :: rest).length = 1 := by
    rw [← htop, topIndices_length]
    simp [List.length_append]
  have hrest : rest = [] := by
    simp only [List.length_cons, Nat.succ_inj] at hlen1
    exact List.length_eq_zero.mp hlen1
  subst hrest
  rw [htop]
  have hget : (_load_meta dk e ++
      [⟨toString dk.nextId, t, e⟩])[(_load_index dk e).vecs.length]? =
      some ⟨toString dk.nextId, t, e⟩ := by
    rw [show (_load_index dk e).vecs.length = (_load_meta dk e).length from
      hlen.symm]
    exact getElem?_concat_self _ _
  simp [List.filterMap_cons, hget]

/-- C3 witness: read-after-write on a fresh owner — saving `"hello"` with
the unit vector `e1v` and searching with the same vector returns
`["hello"]`. -/
theorem c3_read_after_write_witness :
    normSq e1v ≠ 0 ∧
    ∃ r, save_memory emptyDisk "u@x.co" "hello" e1v = .ok r ∧
      search_memories r.1 "u@x.co" e1v 1 = .ok ["hello"] := by
  have hnz : normSq e1v ≠ 0 := by rw [normSq_e1v]; norm_num
  have hfresh : ∀ w ∈ (_load_index emptyDisk "u@x.co").vecs,
      w ≠ normalize e1v := by
    intro w hw
    simp [load_index_emptyDisk] at hw
  have hsave : save_memory emptyDisk "u@x.co" "hello" e1v =
      .ok (savedDisk emptyDisk "u@x.co" "hello" e1v, toString (0 : ℕ)) :=
    save_memory_ok (by rw [normalize_e1v, e1v_length]; rfl)
  exact ⟨hnz, _, hsave,
    c3_read_after_write emptyDisk "u@x.co" "hello" e1v _ _ Reachable.empty
      hnz hfresh hsave⟩

/-- C3 counterexample: after saving `"world"` and then `"hello"` under the
same owner with the **same** embedding, the immediate top-1 search with
that embedding returns `["world"]`, not `["hello"]`: both stored vectors
score 1 and the FAISS tie-break prefers the earlier index. -/
theorem c3_read_after_write_counterexample :
    save_memory emptyDisk "u@x.co" "world" e1v = .ok (dHello, "0") ∧
    ∃ r, save_memory dHello "u@x.co" "hello" e1v = .ok r ∧
      search_memories r.1 "u@x.co" e1v 1 = .ok ["world"] := by
  refine ⟨save_world,
    (savedDisk dHello "u@x.co" "hello" e1v, toString (1 : ℕ)), ?_, ?_⟩
  · exact save_memory_ok (by rw [normalize_e1v, e1v_length, load_index_dHello])
  · show search_memories (savedDisk dHello "u@x.co" "hello" e1v) "u@x.co"
      e1v 1 = .ok ["world"]
    have hidx : _load_index (savedDisk dHello "u@x.co" "hello" e1v)
        "u@x.co" = ⟨384, [e1v, e1v]⟩ := by
      rw [_load_index_savedDisk, if_pos rfl, load_index_dHello, normalize_e1v]
      rfl
    have hmeta : _load_meta (savedDisk dHello "u@x.co" "hello" e1v)
        "u@x.co" = [⟨"0", "world", "u@x.co"⟩, ⟨"1", "hello", "u@x.co"⟩] := by
      rw [_load_meta_savedDisk, if_pos rfl, load_meta_dHello]
      rfl
    have h0 : ¬ (_load_index (savedDisk dHello "u@x.co" "hello" e1v)
        "u@x.co").ntotal = 0 := by
      rw [hidx]
      simp [FaissIndexFlatIP.ntotal]
    have hdim : e1v.length = (_load_index
        (savedDisk dHello "u@x.co" "hello" e1v) "u@x.co").d := by
      rw [hidx, e1v_length]
    rw [search_memories_ok h0 hdim, hidx, hmeta]
    simp [topIndices, scorePairs, FaissIndexFlatIP.ntotal, List.range_succ,
      normalize_e1v, dot_e1v_e1v, scoreGe]

end ZenMemory
